import Mathlib

/-!
A shallow embedding of the proof-of-work ledger in `src/main.py`
(classes `Transaction`, `Block`, `Blockchain`).  Python strings are
modelled as `List Char`; Python numbers (amounts, timestamps) as `Int`;
the nondeterministic clock `time.time()` becomes explicit parameters;
the unbounded mining loop takes fuel and returns `Option`.
SHA-256 and the `json.dumps(..., sort_keys=True)` serialization used by
`Block.calculate_hash` are implemented concretely below.
-/

/-- Python `str` is a sequence of code points. -/
abbrev Str := List Char

/-- Truncation to 32 bits, `x % 2**32`. -/
def m32 (x : Nat) : Nat := x % 4294967296

/-- Right rotation of a 32-bit word by `n` places (for `x < 2 ** 32`). -/
def rotr32 (x n : Nat) : Nat := x / 2 ^ n + x % 2 ^ n * 2 ^ (32 - n)

/-- Complement on 32 bits (for `x < 2 ** 32`). -/
def not32 (x : Nat) : Nat := 4294967295 - x % 4294967296

def shaCh (e f g : Nat) : Nat := (e &&& f) ^^^ (not32 e &&& g)

def shaMaj (a b c : Nat) : Nat := (a &&& b) ^^^ (a &&& c) ^^^ (b &&& c)

def shaS0 (x : Nat) : Nat := rotr32 x 7 ^^^ rotr32 x 18 ^^^ x / 2 ^ 3

def shaS1 (x : Nat) : Nat := rotr32 x 17 ^^^ rotr32 x 19 ^^^ x / 2 ^ 10

def shaB0 (x : Nat) : Nat := rotr32 x 2 ^^^ rotr32 x 13 ^^^ rotr32 x 22

def shaB1 (x : Nat) : Nat := rotr32 x 6 ^^^ rotr32 x 11 ^^^ rotr32 x 25

/-- The SHA-256 round constants. -/
def shaK : List Nat :=
  [1116352408, 1899447441, 3049323471, 3921009573, 961987163, 1508970993,
   2453635748, 2870763221, 3624381080, 310598401, 607225278, 1426881987,
   1925078388, 2162078206, 2614888103, 3248222580, 3835390401, 4022224774,
   264347078, 604807628, 770255983, 1249150122, 1555081692, 1996064986,
   2554220882, 2821834349, 2952996808, 3210313671, 3336571891, 3584528711,
   113926993, 338241895, 666307205, 773529912, 1294757372, 1396182291,
   1695183700, 1986661051, 2177026350, 2456956037, 2730485921, 2820302411,
   3259730800, 3345764771, 3516065817, 3600352804, 4094571909, 275423344,
   430227734, 506948616, 659060556, 883997877, 958139571, 1322822218,
   1537002063, 1747873779, 1955562222, 2024104815, 2227730452, 2361852424,
   2428436474, 2756734187, 3204031479, 3329325298]

/-- SHA-256 working state: eight 32-bit words. -/
abbrev Sha8 := Nat × Nat × Nat × Nat × Nat × Nat × Nat × Nat

/-- The SHA-256 initial hash value. -/
def shaH0 : Sha8 :=
  (1779033703, 3144134277, 1013904242, 2773480762,
   1359893119, 2600822924, 528734635, 1541459225)

/-- One SHA-256 compression round; `kw` is `(round constant, schedule word)`. -/
def shaRound (st : Sha8) (kw : Nat × Nat) : Sha8 :=
  match st with
  | (a, b, c, d, e, f, g, h) =>
    let t1 := m32 (h + shaB1 e + shaCh e f g + kw.1 + kw.2)
    let t2 := m32 (shaB0 a + shaMaj a b c)
    (m32 (t1 + t2), a, b, c, m32 (d + t1), e, f, g)

/-- Pack big-endian bytes into 32-bit words, four at a time. -/
def bytesToWords : List Nat → List Nat
  | b0 :: b1 :: b2 :: b3 :: rest =>
      (b0 * 16777216 + b1 * 65536 + b2 * 256 + b3) :: bytesToWords rest
  | _ => []

/-- Extend the message schedule `n` more steps; `acc` holds the words
produced so far, most recent first. -/
def shaExtend : Nat → List Nat → List Nat
  | 0, acc => acc.reverse
  | n + 1, acc =>
      let w := m32 (shaS1 (acc.getD 1 0) + acc.getD 6 0 +
                    shaS0 (acc.getD 14 0) + acc.getD 15 0)
      shaExtend n (w :: acc)

/-- Compress one 64-byte chunk into the state. -/
def shaCompress (st : Sha8) (chunk : List Nat) : Sha8 :=
  let ws := shaExtend 48 (bytesToWords chunk).reverse
  match st, (shaK.zip ws).foldl shaRound st with
  | (a0, b0, c0, d0, e0, f0, g0, h0), (a, b, c, d, e, f, g, h) =>
    (m32 (a0 + a), m32 (b0 + b), m32 (c0 + c), m32 (d0 + d),
     m32 (e0 + e), m32 (f0 + f), m32 (g0 + g), m32 (h0 + h))

/-- SHA-256 padding: append `0x80`, zeros, and the 64-bit bit length. -/
def shaPad (msg : List Nat) : List Nat :=
  let L := msg.length
  let bits := 8 * L
  msg ++ 128 :: List.replicate ((119 - L % 64) % 64) 0 ++
    [bits / 2 ^ 56 % 256, bits / 2 ^ 48 % 256, bits / 2 ^ 40 % 256,
     bits / 2 ^ 32 % 256, bits / 2 ^ 24 % 256, bits / 2 ^ 16 % 256,
     bits / 2 ^ 8 % 256, bits % 256]

/-- Split into 64-byte chunks (fuel-driven; call with `fuel = l.length`). -/
def toChunks : Nat → List Nat → List (List Nat)
  | 0, _ => []
  | _, [] => []
  | fuel + 1, l => l.take 64 :: toChunks fuel (l.drop 64)

/-- Serialize a 32-bit word as four big-endian bytes. -/
def wordBytes (x : Nat) : List Nat :=
  [x / 16777216 % 256, x / 65536 % 256, x / 256 % 256, x % 256]

/-- Serialize the final state as 32 bytes. -/
def shaStateBytes : Sha8 → List Nat
  | (a, b, c, d, e, f, g, h) =>
    wordBytes a ++ wordBytes b ++ wordBytes c ++ wordBytes d ++
    wordBytes e ++ wordBytes f ++ wordBytes g ++ wordBytes h

/-- SHA-256 of a byte sequence, as 32 bytes. -/
def sha256 (msg : List Nat) : List Nat :=
  let padded := shaPad msg
  shaStateBytes ((toChunks padded.length padded).foldl shaCompress shaH0)

/-- Lower-case hexadecimal digit characters. -/
def hexDigitChar (n : Nat) : Char := "0123456789abcdef".data.getD n '0'

/-- A byte as two lower-case hex characters. -/
def byteHex (b : Nat) : Str := [hexDigitChar (b / 16), hexDigitChar (b % 16)]

/-- Python `hashlib.sha256(...).hexdigest()`: 64 lower-case hex characters. -/
def sha256hex (msg : List Nat) : Str := ((sha256 msg).map byteHex).flatten

/-- UTF-8 encoding of one code point. -/
def utf8Char (c : Char) : List Nat :=
  let n := c.toNat
  if n < 128 then [n]
  else if n < 2048 then [192 + n / 64, 128 + n % 64]
  else if n < 65536 then [224 + n / 4096, 128 + n / 64 % 64, 128 + n % 64]
  else [240 + n / 262144, 128 + n / 4096 % 64, 128 + n / 64 % 64, 128 + n % 64]

/-- Python `str.encode()`: UTF-8 bytes of a string. -/
def utf8Encode (s : Str) : List Nat := (s.map utf8Char).flatten

/-- Four lower-case hex digits of `n` (for JSON escapes). -/
def u4 (n : Nat) : Str :=
  [hexDigitChar (n / 4096 % 16), hexDigitChar (n / 256 % 16),
   hexDigitChar (n / 16 % 16), hexDigitChar (n % 16)]

/-- One character of `json.dumps` output with `ensure_ascii=True`:
printable ASCII other than quote and backslash passes through, the rest
is escaped. -/
def jsonEscapeChar (c : Char) : Str :=
  if c = '"' then ['\\', '"']
  else if c = '\\' then ['\\', '\\']
  else if c = '\n' then ['\\', 'n']
  else if c = '\t' then ['\\', 't']
  else if c = '\r' then ['\\', 'r']
  else if c.toNat = 8 then ['\\', 'b']
  else if c.toNat = 12 then ['\\', 'f']
  else if c.toNat < 32 then '\\' :: 'u' :: u4 c.toNat
  else if c.toNat < 127 then [c]
  else if c.toNat < 65536 then '\\' :: 'u' :: u4 c.toNat
  else '\\' :: 'u' :: u4 (55296 + (c.toNat - 65536) / 1024) ++
       '\\' :: 'u' :: u4 (56320 + (c.toNat - 65536) % 1024)

/-- A JSON string literal: quoted and escaped. -/
def jsonQuote (s : Str) : Str := '"' :: (s.map jsonEscapeChar).flatten ++ ['"']

/-- Decimal digits of an integer, as Python prints it. -/
def intChars (n : Int) : Str := (toString n).data

/-- Decimal digits of a natural number, as Python prints it. -/
def natChars (n : Nat) : Str := (toString n).data

/-- Join a list of strings with a separator. -/
def joinSep (sep : Str) : List Str → Str
  | [] => []
  | [x] => x
  | x :: xs => x ++ sep ++ joinSep sep xs

/-!
## Data model (`Transaction`, `Block`, `Blockchain` from `src/main.py`)
-/

/-- Python `Transaction.__init__`: sender, recipient, amount, and the creation
time `time.time()` (made an explicit field since the clock is external). -/
structure Transaction where
  sender : Str
  recipient : Str
  amount : Int
  timestamp : Int
deriving DecidableEq, Repr

/-- Python `Block`: `hash` is `Optional` (`None` until set); `previous_hash` is
`Optional` as well since Python stores whatever value it is handed
(`None` serializes as `null`). -/
structure Block where
  index : Nat
  transactions : List Transaction
  previous_hash : Option Str
  timestamp : Int
  nonce : Nat
  hash : Option Str
deriving DecidableEq, Repr

/-- The `Transaction.to_dict()` record serialized inside `json.dumps(..., sort_keys=True)`:
keys in order `amount`, `recipient`, `sender`, `timestamp`. -/
def txJson (t : Transaction) : Str :=
  "\x7b\x22amount\x22: ".data ++ intChars t.amount ++
  ", \x22recipient\x22: ".data ++ jsonQuote t.recipient ++
  ", \x22sender\x22: ".data ++ jsonQuote t.sender ++
  ", \x22timestamp\x22: ".data ++ intChars t.timestamp ++ "\x7d".data

/-- An optional string as JSON: `null` or a quoted string. -/
def jsonOptStr : Option Str → Str
  | none => "null".data
  | some s => jsonQuote s

/-- The `block_string` built by `Block.calculate_hash`:
`json.dumps(block_data, sort_keys=True)` with keys in order
`index`, `nonce`, `previous_hash`, `timestamp`, `transactions`. -/
def blockString (b : Block) : Str :=
  "\x7b\x22index\x22: ".data ++ natChars b.index ++
  ", \x22nonce\x22: ".data ++ natChars b.nonce ++
  ", \x22previous_hash\x22: ".data ++ jsonOptStr b.previous_hash ++
  ", \x22timestamp\x22: ".data ++ intChars b.timestamp ++
  ", \x22transactions\x22: [".data ++
  joinSep ", ".data (b.transactions.map txJson) ++ "]\x7d".data

/-- Python `Block.calculate_hash`: SHA-256 hex digest of the UTF-8 encoded
`block_string`.  It reads exactly `index`, `transactions`,
`previous_hash`, `timestamp`, `nonce` — never the stored `hash`. -/
def Block.calculate_hash (b : Block) : Str :=
  sha256hex (utf8Encode (blockString b))

/-- The target string `'0' * difficulty`. -/
def zeros (difficulty : Nat) : Str := List.replicate difficulty '0'

/-- Python `Block.mine_block`: repeatedly set `hash = calculate_hash()` and
check `hash[:difficulty] == '0' * difficulty`, incrementing `nonce` on
failure.  The Python loop is unbounded; here it runs on fuel and
returns `none` when the fuel is exhausted. -/
def mineFrom (b : Block) (difficulty : Nat) : Nat → Option Block
  | 0 => none
  | fuel + 1 =>
    if (b.calculate_hash).take difficulty = zeros difficulty then
      some { b with hash := some b.calculate_hash }
    else
      mineFrom { b with nonce := b.nonce + 1 } difficulty fuel

/-- A transaction record as produced by `Transaction.to_dict()` (the
wire form consumed and produced by sync/export). -/
structure TxData where
  sender : Str
  recipient : Str
  amount : Int
  timestamp : Int
deriving DecidableEq, Repr

/-- A block record as produced by `Block.to_dict()`. -/
structure BlockData where
  index : Nat
  transactions : List TxData
  previous_hash : Option Str
  timestamp : Int
  nonce : Nat
  hash : Option Str
deriving DecidableEq, Repr

/-- Python `Transaction.to_dict()`. -/
def Transaction.to_dict (t : Transaction) : TxData :=
  ⟨t.sender, t.recipient, t.amount, t.timestamp⟩

/-- Python `Block.to_dict()`. -/
def Block.to_dict (b : Block) : BlockData :=
  ⟨b.index, b.transactions.map Transaction.to_dict, b.previous_hash,
   b.timestamp, b.nonce, b.hash⟩

/-- Python `Blockchain`: the chain, its fixed difficulty, the pending pool and
the mining reward (`10.0`). -/
structure Blockchain where
  chain : List Block
  difficulty : Nat
  pending_transactions : List Transaction
  mining_reward : Int
deriving DecidableEq, Repr

/-- Python `Blockchain.__init__` / `create_genesis_block`: start with an empty
chain, difficulty, empty pool and reward `10`, then mine
`Block(0, [], "0")` and append it.  `genesisTs` is the `time.time()`
value the genesis `Block.__init__` observes; `fuel` bounds the mining
loop. -/
def Blockchain.create (difficulty : Nat) (genesisTs : Int) (fuel : Nat) :
    Option Blockchain :=
  let genesis : Block :=
    { index := 0, transactions := [], previous_hash := some "0".data,
      timestamp := genesisTs, nonce := 0, hash := none }
  match mineFrom genesis difficulty fuel with
  | none => none
  | some g =>
    some { chain := [g], difficulty := difficulty,
           pending_transactions := [], mining_reward := 10 }

/-- Python `Blockchain.get_latest_block`: `chain[-1]` (`none` on an empty list,
where Python would raise `IndexError`). -/
def Blockchain.get_latest_block (bc : Blockchain) : Option Block :=
  bc.chain.getLast?

/-- Python `Blockchain.add_transaction`: append to the pending pool,
unconditionally. -/
def Blockchain.add_transaction (bc : Blockchain) (t : Transaction) :
    Blockchain :=
  { bc with pending_transactions := bc.pending_transactions ++ [t] }

/-- The reserved system sender of reward transactions. -/
def sysSender : Str := "系统".data

/-- Python `Blockchain.mine_pending_transactions`: returns `(state, False)` and
changes nothing when the pool is empty; otherwise builds
`Block(len(chain), pending, latest.hash)`, mines it, appends it, and
replaces the pool with the single reward transaction
`Transaction("系统", miner_address, mining_reward)`.  `blockTs` and
`rewardTs` are the `time.time()` values observed by the new block and
the reward transaction; `none` models a mining loop that has not
terminated within `fuel` (or `chain[-1]` raising on an empty chain). -/
def Blockchain.mine_pending_transactions (bc : Blockchain)
    (miner_address : Str) (blockTs rewardTs : Int) (fuel : Nat) :
    Option (Blockchain × Bool) :=
  if bc.pending_transactions.isEmpty then some (bc, false)
  else
    match bc.get_latest_block with
    | none => none
    | some latest =>
      let new_block : Block :=
        { index := bc.chain.length, transactions := bc.pending_transactions,
          previous_hash := latest.hash, timestamp := blockTs,
          nonce := 0, hash := none }
      match mineFrom new_block bc.difficulty fuel with
      | none => none
      | some mined =>
        some ({ bc with
                  chain := bc.chain ++ [mined],
                  pending_transactions :=
                    [⟨sysSender, miner_address, bc.mining_reward, rewardTs⟩] },
              true)

/-- One transaction step of `Blockchain.get_balance`: subtract the
amount when this address is the sender, then add it when this address
is the recipient. -/
def txStep (address : Str) (balance : Int) (tx : Transaction) : Int :=
  let b1 := if tx.sender = address then balance - tx.amount else balance
  if tx.recipient = address then b1 + tx.amount else b1

/-- Python `Blockchain.get_balance`: fold over every transaction of every
committed block, then over the pending pool. -/
def Blockchain.get_balance (bc : Blockchain) (address : Str) : Int :=
  let b := bc.chain.foldl
    (fun acc blk => blk.transactions.foldl (txStep address) acc) 0
  bc.pending_transactions.foldl (txStep address) b

/-- Python `s.startswith(p)`. -/
def strStartsWith (s p : Str) : Bool := s.take p.length == p

/-- The loop body of `Blockchain.is_chain_valid` for indices `1..`:
check the recomputed hash, the link to the predecessor, and the
proof-of-work prefix, in that order. -/
def checkFrom (difficulty : Nat) : Block → List Block → Bool
  | _, [] => true
  | previous, current :: rest =>
    (current.hash == some current.calculate_hash) &&
    (current.previous_hash == previous.hash) &&
    strStartsWith (current.hash.getD []) (zeros difficulty) &&
    checkFrom difficulty current rest

/-- Python `Blockchain.is_chain_valid`: `range(1, len(chain))`, so chains of
length 0 or 1 pass vacuously. -/
def Blockchain.is_chain_valid (bc : Blockchain) : Bool :=
  match bc.chain with
  | [] => true
  | b0 :: rest => checkFrom bc.difficulty b0 rest

/-- Python `Blockchain.export_chain`: `[block.to_dict() for block in chain]`. -/
def Blockchain.export_chain (bc : Blockchain) : List BlockData :=
  bc.chain.map Block.to_dict

/-- Rebuilding the external block list inside `sync_from_chain`.
Each `Transaction(tx[...sender], tx[...recipient], tx[...amount])`
discards the wire timestamp and stamps the transaction with the current
`time.time()`; `Block.__init__` falls back to `time.time()` when the
wire timestamp is falsy (`0`).  `clock k` is the value returned by the
`k`-th `time.time()` call during the rebuild. -/
def rebuildChain (clock : Nat → Int) : Nat → List BlockData → List Block
  | _, [] => []
  | k, bd :: rest =>
    let txs := bd.transactions.enum.map
      (fun jt => Transaction.mk jt.2.sender jt.2.recipient jt.2.amount
                   (clock (k + jt.1)))
    let k1 := k + bd.transactions.length
    let bts := if bd.timestamp = 0 then clock k1 else bd.timestamp
    let k2 := if bd.timestamp = 0 then k1 + 1 else k1
    { index := bd.index, transactions := txs,
      previous_hash := bd.previous_hash, timestamp := bts,
      nonce := bd.nonce, hash := bd.hash } :: rebuildChain clock k2 rest

/-- Python `Blockchain.sync_from_chain`: rebuild the candidate, validate it on
a throw-away `Blockchain(self.difficulty)` (whose genesis mining needs
`tempGenesisTs`/`tempFuel` and is discarded), and replace the local
chain iff the rebuilt candidate is valid and strictly longer.  The pool
is never touched. -/
def Blockchain.sync_from_chain (bc : Blockchain)
    (external_chain : List BlockData) (clock : Nat → Int)
    (tempGenesisTs : Int) (tempFuel : Nat) : Option (Blockchain × Bool) :=
  let new_chain := rebuildChain clock 0 external_chain
  match Blockchain.create bc.difficulty tempGenesisTs tempFuel with
  | none => none
  | some temp =>
    if ({ temp with chain := new_chain } : Blockchain).is_chain_valid &&
        decide (new_chain.length > bc.chain.length) then
      some ({ bc with chain := new_chain }, true)
    else
      some (bc, false)

/-!
## Helper lemmas
-/

/-- The stored `hash` field is not an input of `calculate_hash`. -/
theorem calculate_hash_set_hash (b : Block) (h : Option Str) :
    ({ b with hash := h } : Block).calculate_hash = b.calculate_hash := rfl

/-- What a successful run of the mining loop guarantees: the final hash
is set, recomputable, and hits the target, and only `nonce`/`hash`
changed. -/
theorem mineFrom_fields :
    ∀ (fuel : Nat) (b : Block) (d : Nat) (b' : Block),
      mineFrom b d fuel = some b' →
      b'.hash = some b'.calculate_hash ∧
      List.take d b'.calculate_hash = zeros d ∧
      b'.index = b.index ∧ b'.transactions = b.transactions ∧
      b'.previous_hash = b.previous_hash ∧ b'.timestamp = b.timestamp := by
  intro fuel
  induction fuel with
  | zero => intro b d b' h; simp [mineFrom] at h
  | succ n ih =>
    intro b d b' h
    unfold mineFrom at h
    by_cases hc : (b.calculate_hash).take d = zeros d
    · rw [if_pos hc] at h
      obtain rfl : ({ b with hash := some b.calculate_hash } : Block) = b' :=
        Option.some.inj h
      refine ⟨rfl, ?_, rfl, rfl, rfl, rfl⟩
      simpa [calculate_hash_set_hash] using hc
    · rw [if_neg hc] at h
      simpa using ih { b with nonce := b.nonce + 1 } d b' h

/-- The adjacent-blocks requirement checked by `is_chain_valid`:
recomputed hash matches the stored one, the link points at the
predecessor, and the stored hash has `difficulty` leading zeros. -/
def blockLink (difficulty : Nat) (previous current : Block) : Prop :=
  current.hash = some current.calculate_hash ∧
  current.previous_hash = previous.hash ∧
  List.take difficulty (current.hash.getD []) = zeros difficulty

instance (d : Nat) (p c : Block) : Decidable (blockLink d p c) := by
  unfold blockLink; infer_instance

theorem strStartsWith_zeros (s : Str) (d : Nat) :
    strStartsWith s (zeros d) = true ↔ s.take d = zeros d := by
  simp [strStartsWith, zeros]

theorem checkFrom_iff_chain' (d : Nat) :
    ∀ (l : List Block) (p : Block),
      checkFrom d p l = true ↔ List.Chain' (blockLink d) (p :: l) := by
  intro l
  induction l with
  | nil => intro p; simp [checkFrom]
  | cons c rest ih =>
    intro p
    rw [List.chain'_cons]
    simp only [checkFrom, Bool.and_eq_true, beq_iff_eq, strStartsWith_zeros,
      ih c, blockLink]
    tauto

/-- The check `is_chain_valid` decides exactly the `blockLink` chain condition. -/
theorem valid_iff_chain' (bc : Blockchain) :
    bc.is_chain_valid = true ↔
      List.Chain' (blockLink bc.difficulty) bc.chain := by
  unfold Blockchain.is_chain_valid
  cases h : bc.chain with
  | nil => simp
  | cons b0 rest => simpa using checkFrom_iff_chain' bc.difficulty rest b0

/-- Inversion of `Blockchain.create`. -/
theorem create_inv (d : Nat) (ts : Int) (fuel : Nat) (bc : Blockchain)
    (h : Blockchain.create d ts fuel = some bc) :
    ∃ g, mineFrom ⟨0, [], some "0".data, ts, 0, none⟩ d fuel = some g ∧
      bc = ⟨[g], d, [], 10⟩ := by
  unfold Blockchain.create at h
  cases hm : mineFrom ⟨0, [], some "0".data, ts, 0, none⟩ d fuel with
  | none => simp only [hm] at h; exact Option.noConfusion h
  | some g =>
    simp only [hm, Option.some.injEq] at h
    exact ⟨g, rfl, h.symm⟩

/-- Inversion of `Blockchain.mine_pending_transactions`. -/
theorem mine_inv (bc : Blockchain) (m : Str) (bts rts : Int) (fuel : Nat)
    (out : Blockchain × Bool)
    (h : bc.mine_pending_transactions m bts rts fuel = some out) :
    (bc.pending_transactions = [] ∧ out = (bc, false)) ∨
    (∃ latest mined,
      bc.pending_transactions ≠ [] ∧
      bc.chain.getLast? = some latest ∧
      mineFrom ⟨bc.chain.length, bc.pending_transactions, latest.hash,
                 bts, 0, none⟩ bc.difficulty fuel = some mined ∧
      out = ({ bc with
                 chain := bc.chain ++ [mined],
                 pending_transactions :=
                   [⟨sysSender, m, bc.mining_reward, rts⟩] }, true)) := by
  unfold Blockchain.mine_pending_transactions Blockchain.get_latest_block at h
  by_cases hp : bc.pending_transactions.isEmpty
  · rw [if_pos hp] at h
    exact Or.inl ⟨List.isEmpty_iff.mp hp, (Option.some.inj h).symm⟩
  · rw [if_neg hp] at h
    cases hl : bc.chain.getLast? with
    | none => simp only [hl] at h; exact Option.noConfusion h
    | some latest =>
      simp only [hl] at h
      cases hm : mineFrom ⟨bc.chain.length, bc.pending_transactions,
          latest.hash, bts, 0, none⟩ bc.difficulty fuel with
      | none => simp only [hm] at h; exact Option.noConfusion h
      | some mined =>
        simp only [hm, Option.some.injEq] at h
        exact Or.inr ⟨latest, mined, fun he => hp (by simp [he]), rfl, hm,
          h.symm⟩

/-- Inversion of `Blockchain.sync_from_chain`. -/
theorem sync_inv (bc : Blockchain) (ext : List BlockData)
    (clock : Nat → Int) (gts : Int) (fuel : Nat) (out : Blockchain × Bool)
    (h : bc.sync_from_chain ext clock gts fuel = some out) :
    ∃ temp, Blockchain.create bc.difficulty gts fuel = some temp ∧
      ((({ temp with chain := rebuildChain clock 0 ext } :
            Blockchain).is_chain_valid = true ∧
        (rebuildChain clock 0 ext).length > bc.chain.length ∧
        out = ({ bc with chain := rebuildChain clock 0 ext }, true)) ∨
       out = (bc, false)) := by
  unfold Blockchain.sync_from_chain at h
  cases hc : Blockchain.create bc.difficulty gts fuel with
  | none => simp only [hc] at h; exact Option.noConfusion h
  | some temp =>
    simp only [hc] at h
    refine ⟨temp, rfl, ?_⟩
    split at h
    next hv =>
      simp only [Bool.and_eq_true, decide_eq_true_eq] at hv
      exact Or.inl ⟨hv.1, hv.2, (Option.some.inj h).symm⟩
    next hv =>
      exact Or.inr (Option.some.inj h).symm

/-- The net effect of one transaction on one address. -/
def txContrib (address : Str) (tx : Transaction) : Int :=
  (if tx.sender = address then -tx.amount else 0) +
  (if tx.recipient = address then tx.amount else 0)

theorem txStep_eq (a : Str) (bal : Int) (tx : Transaction) :
    txStep a bal tx = bal + txContrib a tx := by
  unfold txStep txContrib
  by_cases h1 : tx.sender = a <;> by_cases h2 : tx.recipient = a <;>
    (simp [h1, h2]; try ring)

theorem foldl_txStep (a : Str) :
    ∀ (l : List Transaction) (x : Int),
      l.foldl (txStep a) x = x + (l.map (txContrib a)).sum := by
  intro l
  induction l with
  | nil => intro x; simp
  | cons t ts ih =>
    intro x
    simp only [List.foldl_cons, List.map_cons, List.sum_cons, ih, txStep_eq]
    ring

theorem foldl_blocks (a : Str) :
    ∀ (bs : List Block) (x : Int),
      bs.foldl (fun acc blk => blk.transactions.foldl (txStep a) acc) x =
        x + ((bs.map Block.transactions).flatten.map (txContrib a)).sum := by
  intro bs
  induction bs with
  | nil => intro x; simp
  | cons b rest ih =>
    intro x
    rw [List.foldl_cons, ih, foldl_txStep]
    simp only [List.map_cons, List.flatten_cons, List.map_append,
      List.sum_append]
    ring

/-- Every transaction recorded anywhere in the state: committed blocks
in chain order, then the pending pool. -/
def allTxs (bc : Blockchain) : List Transaction :=
  (bc.chain.map Block.transactions).flatten ++ bc.pending_transactions

/-- The balance `get_balance` is the sum of the per-transaction contributions over
`allTxs`. -/
theorem get_balance_eq_sum (bc : Blockchain) (a : Str) :
    bc.get_balance a = ((allTxs bc).map (txContrib a)).sum := by
  unfold Blockchain.get_balance allTxs
  rw [foldl_txStep, foldl_blocks]
  simp only [List.map_append, List.sum_append]
  ring

/-- Every address that occurs as a sender or recipient of any committed
or pending transaction. -/
def addrFinset (bc : Blockchain) : Finset Str :=
  (((allTxs bc).map Transaction.sender) ++
   ((allTxs bc).map Transaction.recipient)).toFinset

theorem sum_contrib_zero (S : Finset Str) :
    ∀ txs : List Transaction,
      (∀ tx ∈ txs, tx.sender ∈ S ∧ tx.recipient ∈ S) →
      ∑ a ∈ S, (txs.map (txContrib a)).sum = 0 := by
  intro txs
  induction txs with
  | nil => intro _; simp
  | cons t ts ih =>
    intro hmem
    simp only [List.map_cons, List.sum_cons, Finset.sum_add_distrib]
    rw [ih (fun tx htx => hmem tx (List.mem_cons_of_mem t htx))]
    have hm := hmem t (List.mem_cons_self t ts)
    simp only [txContrib, Finset.sum_add_distrib, Finset.sum_ite_eq,
      hm.1, hm.2, if_pos, add_zero]
    ring

/-!
## Claim theorems
-/

/-- C8.  For every chain state whose committed and pending transactions
involve no reward transaction (no sender is the reserved system
identifier), the balances of all addresses occurring as a sender or
recipient sum to zero. -/
theorem balance_conservation (bc : Blockchain)
    (_hnoreward : ∀ tx ∈ allTxs bc, tx.sender ≠ sysSender) :
    ∑ a ∈ addrFinset bc, bc.get_balance a = 0 := by
  have hmem : ∀ tx ∈ allTxs bc,
      tx.sender ∈ addrFinset bc ∧ tx.recipient ∈ addrFinset bc := by
    intro tx htx
    constructor <;>
      · unfold addrFinset
        rw [List.mem_toFinset, List.mem_append]
        first
        | exact Or.inl (List.mem_map_of_mem Transaction.sender htx)
        | exact Or.inr (List.mem_map_of_mem Transaction.recipient htx)
  calc ∑ a ∈ addrFinset bc, bc.get_balance a
      = ∑ a ∈ addrFinset bc, ((allTxs bc).map (txContrib a)).sum := by
        exact Finset.sum_congr rfl (fun a _ => get_balance_eq_sum bc a)
    _ = 0 := sum_contrib_zero (addrFinset bc) (allTxs bc) hmem

/-- C9.  Mining with an empty pending pool returns the "nothing to
mine" signal `False` and leaves the whole state unchanged. -/
theorem mine_empty_pool_noop (bc : Blockchain) (m : Str) (bts rts : Int)
    (fuel : Nat) (hempty : bc.pending_transactions = []) :
    bc.mine_pending_transactions m bts rts fuel = some (bc, false) := by
  unfold Blockchain.mine_pending_transactions
  rw [if_pos (by simp [hempty])]

/-- C10.  A chain of length 0 or 1 always passes `is_chain_valid`: the
genesis block is never inspected, whatever its stored hash. -/
theorem short_chain_always_valid (bc : Blockchain)
    (hlen : bc.chain.length ≤ 1) : bc.is_chain_valid = true := by
  unfold Blockchain.is_chain_valid
  cases hch : bc.chain with
  | nil => rfl
  | cons b0 rest =>
    cases rest with
    | nil => rfl
    | cons b1 rest2 => rw [hch] at hlen; simp at hlen

/-- C6.  Whenever the mining loop returns, the block's `hash` field is
set to the hash recomputed from its final five fields and hits the
difficulty target, and only `nonce` and `hash` were mutated. -/
theorem mine_block_postcondition (b : Block) (d fuel : Nat) (b' : Block)
    (hret : mineFrom b d fuel = some b') :
    b'.hash = some b'.calculate_hash ∧
    List.take d b'.calculate_hash = zeros d ∧
    b'.index = b.index ∧ b'.transactions = b.transactions ∧
    b'.previous_hash = b.previous_hash ∧ b'.timestamp = b.timestamp :=
  mineFrom_fields fuel b d b' hret

/-- C6 witness: a concrete run of the mining loop. -/
def mwBlock : Block :=
  { index := 0, transactions := [], previous_hash := some "0".data,
    timestamp := 21, nonce := 0, hash := none }

def mwMined : Block := (mineFrom mwBlock 0 1).getD mwBlock

set_option maxRecDepth 40000 in
theorem mine_block_postcondition_witness :
    mineFrom mwBlock 0 1 = some mwMined ∧
    (mwMined.hash = some mwMined.calculate_hash ∧
     List.take 0 mwMined.calculate_hash = zeros 0 ∧
     mwMined.index = mwBlock.index ∧
     mwMined.transactions = mwBlock.transactions ∧
     mwMined.previous_hash = mwBlock.previous_hash ∧
     mwMined.timestamp = mwBlock.timestamp) :=
  ⟨by decide, mine_block_postcondition mwBlock 0 1 mwMined (by decide)⟩

/-- C5.  `is_chain_valid` returns `True` exactly when every block from
index 1 on recomputes to its stored hash, links to its predecessor, and
carries the proof-of-work prefix; index 0 is never constrained. -/
theorem is_chain_valid_iff_indexed (bc : Blockchain) :
    bc.is_chain_valid = true ↔
      ∀ (i : Nat) (h1 : 1 ≤ i) (h2 : i < bc.chain.length),
        blockLink bc.difficulty (bc.chain.get ⟨i - 1, by omega⟩)
          (bc.chain.get ⟨i, h2⟩) := by
  rw [valid_iff_chain', List.chain'_iff_get]
  constructor
  · intro H i h1 h2
    have hx := H (i - 1) (by omega)
    have he : i - 1 + 1 = i := by omega
    simp only [he] at hx
    exact hx
  · intro H i hlt
    have hx := H (i + 1) (by omega) (by omega)
    simpa using hx

theorem shaStateBytes_length (st : Sha8) : (shaStateBytes st).length = 32 := by
  obtain ⟨a, b, c, d, e, f, g, h⟩ := st
  rfl

theorem sha256_length (msg : List Nat) : (sha256 msg).length = 32 := by
  unfold sha256
  exact shaStateBytes_length _

theorem map_byteHex_flatten_length :
    ∀ l : List Nat, ((l.map byteHex).flatten).length = 2 * l.length := by
  intro l
  induction l with
  | nil => rfl
  | cons b rest ih =>
    simp only [List.map_cons, List.flatten_cons, List.length_append, ih,
      List.length_cons]
    simp [byteHex]
    ring

theorem sha256hex_length (msg : List Nat) : (sha256hex msg).length = 64 := by
  unfold sha256hex
  rw [map_byteHex_flatten_length, sha256_length]

theorem hexDigitChar_mem (n : Nat) :
    hexDigitChar n ∈ "0123456789abcdef".data := by
  unfold hexDigitChar
  rcases Nat.lt_or_ge n 16 with h | h
  · interval_cases n <;> decide
  · have hnone : ("0123456789abcdef".data)[n]? = none := by
      rw [List.getElem?_eq_none_iff]
      simpa using h
    simp [List.getD, hnone]

theorem sha256hex_mem (msg : List Nat) (c : Char)
    (hc : c ∈ sha256hex msg) : c ∈ "0123456789abcdef".data := by
  unfold sha256hex at hc
  rw [List.mem_flatten] at hc
  obtain ⟨l, hl, hcl⟩ := hc
  rw [List.mem_map] at hl
  obtain ⟨b, _, rfl⟩ := hl
  simp only [byteHex, List.mem_cons, List.not_mem_nil, or_false] at hcl
  rcases hcl with rfl | rfl
  · exact hexDigitChar_mem _
  · exact hexDigitChar_mem _

/-- C7.  `calculate_hash` depends on exactly the five fields `index`,
`transactions`, `previous_hash`, `timestamp`, `nonce` — never on the
stored `hash` — and always returns a 64-character lower-case hex
digest. -/
theorem calculate_hash_deterministic (b1 b2 : Block)
    (hi : b1.index = b2.index) (ht : b1.transactions = b2.transactions)
    (hp : b1.previous_hash = b2.previous_hash)
    (hts : b1.timestamp = b2.timestamp) (hn : b1.nonce = b2.nonce) :
    b1.calculate_hash = b2.calculate_hash ∧
    b1.calculate_hash.length = 64 ∧
    ∀ c ∈ b1.calculate_hash, c ∈ "0123456789abcdef".data := by
  obtain ⟨i1, t1, p1, s1, n1, h1⟩ := b1
  obtain ⟨i2, t2, p2, s2, n2, h2⟩ := b2
  simp only at hi ht hp hts hn
  subst hi; subst ht; subst hp; subst hts; subst hn
  exact ⟨rfl, sha256hex_length _, fun c hc => sha256hex_mem _ c hc⟩

/-- C7 witness: two blocks equal on the five hashed fields but with
different stored `hash` values. -/
def hwBlock1 : Block :=
  { index := 3, transactions := [⟨"A".data, "B".data, 7, 9⟩],
    previous_hash := some "00ab".data, timestamp := 5, nonce := 42,
    hash := none }

def hwBlock2 : Block := { hwBlock1 with hash := some "ffff".data }

theorem calculate_hash_deterministic_witness :
    hwBlock1.index = hwBlock2.index ∧
    hwBlock1.transactions = hwBlock2.transactions ∧
    hwBlock1.previous_hash = hwBlock2.previous_hash ∧
    hwBlock1.timestamp = hwBlock2.timestamp ∧
    hwBlock1.nonce = hwBlock2.nonce ∧
    hwBlock1.hash ≠ hwBlock2.hash ∧
    (hwBlock1.calculate_hash = hwBlock2.calculate_hash ∧
     hwBlock1.calculate_hash.length = 64 ∧
     ∀ c ∈ hwBlock1.calculate_hash, c ∈ "0123456789abcdef".data) :=
  ⟨rfl, rfl, rfl, rfl, rfl, by decide,
   calculate_hash_deterministic hwBlock1 hwBlock2 rfl rfl rfl rfl rfl⟩

/-- C10 witness: a single-block chain with a garbage stored hash that
does not match its recomputed hash and has no leading zeros. -/
def swChain : Blockchain :=
  ⟨[⟨5, [], none, 0, 3, some "zz".data⟩], 4, [], 10⟩

theorem short_chain_always_valid_witness :
    swChain.chain.length ≤ 1 ∧ swChain.is_chain_valid = true :=
  ⟨by decide, short_chain_always_valid swChain (by decide)⟩

/-- C9 witness: a concrete state with an empty pool. -/
def ewChain : Blockchain :=
  ⟨[⟨0, [], some "0".data, 1, 0, some "00aa".data⟩], 2, [], 10⟩

theorem mine_empty_pool_noop_witness :
    ewChain.pending_transactions = [] ∧
    ewChain.mine_pending_transactions "m".data 3 4 5 = some (ewChain, false) :=
  ⟨rfl, mine_empty_pool_noop ewChain "m".data 3 4 5 rfl⟩

/-- C8 witness: one committed transfer and one pending transfer with no
reward transaction anywhere. -/
def bwChain : Blockchain :=
  ⟨[⟨0, [], some "0".data, 1, 0, none⟩,
    ⟨1, [⟨"A".data, "B".data, 50, 2⟩], none, 3, 0, none⟩], 1,
   [⟨"C".data, "D".data, 7, 4⟩], 10⟩

theorem balance_conservation_witness :
    (∀ tx ∈ allTxs bwChain, tx.sender ≠ sysSender) ∧
    ∑ a ∈ addrFinset bwChain, bwChain.get_balance a = 0 :=
  ⟨by decide, balance_conservation bwChain (by decide)⟩

/-- The chain-shape invariant of the specification: a non-empty block
list in which every block from index 1 on satisfies `blockLink` with
its predecessor (stored hash recomputable, linked, difficulty prefix). -/
def ChainOK (bc : Blockchain) : Prop :=
  bc.chain ≠ [] ∧ List.Chain' (blockLink bc.difficulty) bc.chain

/-- C4.  `ChainOK` holds after construction and is preserved by
`add_transaction`, `mine_pending_transactions` and `sync_from_chain`. -/
theorem chain_invariants_preserved :
    (∀ (d : Nat) (ts : Int) (fuel : Nat) (bc : Blockchain),
        Blockchain.create d ts fuel = some bc → ChainOK bc) ∧
    (∀ (bc : Blockchain) (t : Transaction),
        ChainOK bc → ChainOK (bc.add_transaction t)) ∧
    (∀ (bc : Blockchain) (m : Str) (bts rts : Int) (fuel : Nat)
        (out : Blockchain × Bool), ChainOK bc →
        bc.mine_pending_transactions m bts rts fuel = some out →
        ChainOK out.1) ∧
    (∀ (bc : Blockchain) (ext : List BlockData) (clock : Nat → Int)
        (gts : Int) (fuel : Nat) (out : Blockchain × Bool), ChainOK bc →
        bc.sync_from_chain ext clock gts fuel = some out →
        ChainOK out.1) := by
  refine ⟨?_, ?_, ?_, ?_⟩
  · intro d ts fuel bc h
    obtain ⟨g, _, rfl⟩ := create_inv d ts fuel bc h
    exact ⟨by simp, List.chain'_singleton g⟩
  · intro bc t h
    exact h
  · intro bc m bts rts fuel out hok h
    rcases mine_inv bc m bts rts fuel out h with
      ⟨_, rfl⟩ | ⟨latest, mined, _, hl, hm, rfl⟩
    · exact hok
    · obtain ⟨hh, hz, _, _, hprev, _⟩ :=
        mineFrom_fields fuel _ bc.difficulty mined hm
      refine ⟨by simp, ?_⟩
      refine List.Chain'.append hok.2 (List.chain'_singleton mined) ?_
      intro x hx y hy
      rw [hl] at hx
      simp only [Option.mem_def, Option.some.injEq] at hx
      simp only [List.head?_cons, Option.mem_def, Option.some.injEq] at hy
      subst hx; subst hy
      refine ⟨hh, ?_, ?_⟩
      · rw [hprev]
      · rw [hh]
        simpa using hz
  · intro bc ext clock gts fuel out hok h
    rcases sync_inv bc ext clock gts fuel out h with ⟨temp, hcreate, hcase⟩
    rcases hcase with ⟨hv, hlen, rfl⟩ | rfl
    · obtain ⟨g, _, rfl⟩ := create_inv _ _ _ _ hcreate
      refine ⟨?_, (valid_iff_chain' _).mp hv⟩
      have hpos : 0 < bc.chain.length := List.length_pos.mpr hok.1
      have hpos2 : 0 < (rebuildChain clock 0 ext).length := by omega
      exact List.ne_nil_of_length_pos hpos2
    · exact hok

/-- C4 witness: a concrete pipeline of construction, intake and mining
at difficulty 0. -/
def iwBc0 : Blockchain := (Blockchain.create 0 11 1).getD ⟨[], 0, [], 0⟩

def iwBc1 : Blockchain := iwBc0.add_transaction ⟨"x".data, "y".data, 3, 12⟩

def iwOut : Blockchain × Bool :=
  (iwBc1.mine_pending_transactions "m".data 13 14 1).getD (iwBc1, false)

set_option maxRecDepth 40000 in
theorem chain_invariants_preserved_witness :
    Blockchain.create 0 11 1 = some iwBc0 ∧
    iwBc1.mine_pending_transactions "m".data 13 14 1 = some iwOut ∧
    ChainOK iwBc0 ∧ ChainOK iwBc1 ∧ ChainOK iwOut.1 :=
  ⟨by decide, by decide,
   chain_invariants_preserved.1 0 11 1 iwBc0 (by decide),
   chain_invariants_preserved.2.1 iwBc0 _
     (chain_invariants_preserved.1 0 11 1 iwBc0 (by decide)),
   chain_invariants_preserved.2.2.1 iwBc1 "m".data 13 14 1 iwOut
     (chain_invariants_preserved.2.1 iwBc0 _
       (chain_invariants_preserved.1 0 11 1 iwBc0 (by decide)))
     (by decide)⟩

/-- C3.  Whenever the candidate is invalid or not strictly longer,
`sync_from_chain` returns `False` and hands back the state unchanged —
same blocks, same pending pool. -/
theorem sync_reject_preserves_state (bc : Blockchain)
    (ext : List BlockData) (clock : Nat → Int) (gts : Int) (fuel : Nat)
    (temp : Blockchain)
    (hcreate : Blockchain.create bc.difficulty gts fuel = some temp)
    (hrej : ({ temp with chain := rebuildChain clock 0 ext } :
              Blockchain).is_chain_valid = false ∨
            (rebuildChain clock 0 ext).length ≤ bc.chain.length) :
    bc.sync_from_chain ext clock gts fuel = some (bc, false) := by
  unfold Blockchain.sync_from_chain
  simp only [hcreate]
  have hcond : (({ temp with chain := rebuildChain clock 0 ext } :
      Blockchain).is_chain_valid &&
      decide ((rebuildChain clock 0 ext).length > bc.chain.length)) =
        false := by
    rcases hrej with h | h
    · simp [h]
    · simp [Nat.not_lt.mpr h]
  simp only [hcond, Bool.false_eq_true, if_false]

/-- C3 witness: an empty candidate list against a one-block local
chain. -/
def rwLocal : Blockchain := (Blockchain.create 0 31 1).getD ⟨[], 0, [], 0⟩

def rwTemp : Blockchain := (Blockchain.create 0 32 1).getD ⟨[], 0, [], 0⟩

set_option maxRecDepth 40000 in
theorem sync_reject_preserves_state_witness :
    Blockchain.create rwLocal.difficulty 32 1 = some rwTemp ∧
    (rebuildChain (fun _ => 9) 0 []).length ≤ rwLocal.chain.length ∧
    rwLocal.sync_from_chain [] (fun _ => 9) 32 1 = some (rwLocal, false) :=
  ⟨by decide, by decide,
   sync_reject_preserves_state rwLocal [] (fun _ => 9) 32 1 rwTemp
     (by decide) (Or.inr (by decide))⟩

/-- C1 (amended).  In the difficulty-1 scenario — genesis mined, one
transfer `A → B` of 50 added, one successful mining round for `M` —
block 1 contains exactly the transfer, hits the target, and links to
the genesis hash; the pool holds exactly the reward transaction; and
the balances are `B = 50`, `A = -50`, and `M = 10` (the pending reward
is counted by `get_balance`, so the miner balance is the reward, not
zero). -/
theorem concrete_scenario_balances
    (gts tts bts rts : Int) (A B M : Str) (fg fm : Nat)
    (bc0 bc2 : Blockchain)
    (hAB : A ≠ B) (hAM : A ≠ M) (hBM : B ≠ M)
    (hAs : A ≠ sysSender) (hBs : B ≠ sysSender) (hMs : M ≠ sysSender)
    (hc : Blockchain.create 1 gts fg = some bc0)
    (hm : (bc0.add_transaction ⟨A, B, 50, tts⟩).mine_pending_transactions
            M bts rts fm = some (bc2, true)) :
    ∃ g nb,
      bc0.chain = [g] ∧ bc2.chain = [g, nb] ∧
      nb.transactions = [⟨A, B, 50, tts⟩] ∧
      nb.hash = some nb.calculate_hash ∧
      List.take 1 nb.calculate_hash = zeros 1 ∧
      nb.previous_hash = g.hash ∧
      bc2.pending_transactions = [⟨sysSender, M, 10, rts⟩] ∧
      bc2.get_balance B = 50 ∧ bc2.get_balance A = -50 ∧
      bc2.get_balance M = 10 := by
  obtain ⟨g, hg, rfl⟩ := create_inv 1 gts fg bc0 hc
  have hgtx : g.transactions = [] := by
    simpa using (mineFrom_fields fg _ 1 g hg).2.2.2.1
  rcases mine_inv _ M bts rts fm (bc2, true) hm with
    ⟨hemp, _⟩ | ⟨latest, mined, _, hl, hmf, hout⟩
  · simp [Blockchain.add_transaction] at hemp
  · have hlat : g = latest := Option.some.inj hl
    subst hlat
    injection hout with hbc2 _
    subst hbc2
    obtain ⟨hh, hz, _, htx, hprev, _⟩ := mineFrom_fields fm _ _ mined hmf
    have htx' : mined.transactions = [⟨A, B, 50, tts⟩] := htx
    have hbal : ∀ addr : Str,
        (({ (⟨[g], 1, [], 10⟩ : Blockchain).add_transaction ⟨A, B, 50, tts⟩ with
            chain := ((⟨[g], 1, [], 10⟩ :
              Blockchain).add_transaction ⟨A, B, 50, tts⟩).chain ++ [mined],
            pending_transactions :=
              [⟨sysSender, M, ((⟨[g], 1, [], 10⟩ :
                Blockchain).add_transaction ⟨A, B, 50, tts⟩).mining_reward,
                rts⟩] } : Blockchain).get_balance addr) =
          List.foldl (txStep addr)
            (List.foldl (txStep addr)
              (List.foldl (txStep addr) 0 g.transactions)
              mined.transactions)
            [⟨sysSender, M, 10, rts⟩] := fun addr => rfl
    refine ⟨g, mined, rfl, rfl, htx', hh, hz, hprev, rfl, ?_, ?_, ?_⟩
    · rw [hbal, hgtx, htx']
      simp [txStep, hAB, hBM, Ne.symm hBM, Ne.symm hBs]
    · rw [hbal, hgtx, htx']
      simp [txStep, Ne.symm hAB, Ne.symm hAM, Ne.symm hAs]
    · rw [hbal, hgtx, htx']
      simp [txStep, hAM, hBM, Ne.symm hMs]

/-- The concrete difficulty-1 scenario: genesis observed at time 4
(mined with nonce 2), the transfer timestamped 1, block 1 observed at
time 7 (mined at nonce 0), reward timestamped 8. -/
def c1bc0 : Blockchain := (Blockchain.create 1 4 3).getD ⟨[], 0, [], 0⟩

def c1bc1 : Blockchain := c1bc0.add_transaction ⟨"A".data, "B".data, 50, 1⟩

def c1bc2 : Blockchain :=
  ((c1bc1.mine_pending_transactions "M".data 7 8 1).getD (c1bc1, false)).1

set_option maxRecDepth 100000 in
/-- C1 counterexample: in exactly the claimed scenario the miner's
balance is the reward 10, not 0 — `get_balance` counts the pending
reward transaction. -/
theorem concrete_scenario_counterexample :
    Blockchain.create 1 4 3 = some c1bc0 ∧
    c1bc1.mine_pending_transactions "M".data 7 8 1 = some (c1bc2, true) ∧
    c1bc2.get_balance "M".data = 10 ∧
    ¬ c1bc2.get_balance "M".data = 0 :=
  ⟨by decide, by decide, by decide, by decide⟩

set_option maxRecDepth 100000 in
/-- C1 witness: the amended theorem applied to the concrete run. -/
theorem concrete_scenario_balances_witness :
    Blockchain.create 1 4 3 = some c1bc0 ∧
    (c1bc0.add_transaction ⟨"A".data, "B".data, 50,
        1⟩).mine_pending_transactions "M".data 7 8 1 =
      some (c1bc2, true) ∧
    (∃ g nb,
      c1bc0.chain = [g] ∧ c1bc2.chain = [g, nb] ∧
      nb.transactions = [⟨"A".data, "B".data, 50, 1⟩] ∧
      nb.hash = some nb.calculate_hash ∧
      List.take 1 nb.calculate_hash = zeros 1 ∧
      nb.previous_hash = g.hash ∧
      c1bc2.pending_transactions = [⟨sysSender, "M".data, 10, 8⟩] ∧
      c1bc2.get_balance "B".data = 50 ∧
      c1bc2.get_balance "A".data = -50 ∧
      c1bc2.get_balance "M".data = 10) :=
  ⟨by decide, by decide,
   concrete_scenario_balances 4 1 7 8 "A".data "B".data "M".data 3 1
     c1bc0 c1bc2 (by decide) (by decide) (by decide) (by decide)
     (by decide) (by decide) (by decide) (by decide)⟩

/-- The fixture for the sync claim: a valid two-block source chain at
difficulty 0 (one committed transfer timestamped 5), its export, and a
fresh one-block local node of the same difficulty. -/
def syncSrc0 : Blockchain := (Blockchain.create 0 1 1).getD ⟨[], 0, [], 0⟩

def syncSrc1 : Blockchain :=
  syncSrc0.add_transaction ⟨"A".data, "B".data, 50, 5⟩

def syncSrc2 : Blockchain :=
  ((syncSrc1.mine_pending_transactions "M".data 6 7 1).getD
    (syncSrc1, false)).1

def syncExported : List BlockData := syncSrc2.export_chain

def syncLocal : Blockchain := (Blockchain.create 0 1 1).getD ⟨[], 0, [], 0⟩

set_option maxRecDepth 100000 in
/-- C2: evaluation at the failing input.  The exported candidate comes
from a fully valid chain of the same difficulty and is strictly longer
than the local chain, yet `sync_from_chain` (rebuilding transactions
with the sync-time clock, here 100) rejects it and keeps the local
chain: the rebuild stamps fresh transaction timestamps, so the
recomputed hash of block 1 no longer matches its stored hash. -/
theorem sync_export_rejected_eval :
    syncSrc2.is_chain_valid = true ∧
    syncSrc2.difficulty = syncLocal.difficulty ∧
    syncExported = syncSrc2.export_chain ∧
    syncExported.length = syncLocal.chain.length + 1 ∧
    syncLocal.sync_from_chain syncExported (fun _ => 100) 1 1 =
      some (syncLocal, false) :=
  ⟨by decide, by decide, rfl, by decide, by decide⟩
